import Mathlib

/-!
Verification of the segment-selector ("editing") and timestamp-stabilizer
("fixpts") filter stages.

The development shallowly embeds the two C translation units:
* `libavfilter/f_fixpts.c` (namespace `FixPts`): a bounded FIFO of frames
  with a gap-based resolution step (`process_next_frame`), a push entry
  point (`filter_frame`) and a pull entry point (`request_frame`).
* the editing filter (namespace `Editing`): a segment-list parser
  (`parse_segments` built on `strsep` and `atof`) and the per-frame
  selection/re-basing state machine (`filter_frame`).

C `double` values are modelled as `ℚ` (the claims under scrutiny are about
comparison and affine arithmetic, not rounding), frame `pts` as `ℤ` ticks,
and a frame queue as a `List` whose head is the oldest entry.  Downstream
delivery (`ff_filter_frame`) is modelled by a return code `ds` supplied by
the caller; emitted frames are returned explicitly.
-/

/-- `AVERROR(EINVAL)` on a Linux build: `-22`. -/
def AVERROR_EINVAL : Int := -22

/-- `AVERROR_EOF = FFERRTAG('E','O','F',' ')`. -/
def AVERROR_EOF : Int := -541478725

/-- `fabs` on our rational model of `double`. -/
def qabs (x : ℚ) : ℚ := if x < 0 then -x else x

/-- Truncation toward zero, the C `double` → `int64_t` conversion. -/
def truncQ (q : ℚ) : ℤ := q.num / (q.den : ℤ)

/-- `AVMEDIA_TYPE_VIDEO` / `AVMEDIA_TYPE_AUDIO`. -/
inductive MediaType where
  | video : MediaType
  | audio : MediaType
deriving DecidableEq

/-- The fields of `AVFilterLink` read by the two filters. -/
structure FilterLink where
  mediaType : MediaType
  frame_rate : ℚ
  sample_rate : ℚ
  time_base : ℚ
deriving DecidableEq

/-- An `AVFrame`, reduced to the fields the filters read. -/
structure Frame where
  pts : ℤ
  nb_samples : ℕ
deriving DecidableEq

namespace FixPts

/-- `FixPtsContext`; `bufsize` counts frames (the C `maxbufsize` is the same
bound expressed in bytes), `fifo` holds the queued frames, oldest first. -/
structure FixPtsContext where
  last_ts : ℚ
  last_nb_samples : ℕ
  tolerance : ℚ
  bufsize : ℕ
  fifo : List Frame
deriving DecidableEq

/-- The expected inter-frame interval `frame_ti`: reciprocal frame rate for
video, previously emitted sample count over the sample rate for audio. -/
def expectedInterval (lk : FilterLink) (last_nb_samples : ℕ) : ℚ :=
  match lk.mediaType with
  | MediaType.video => 1 / lk.frame_rate
  | MediaType.audio => 1 / lk.sample_rate * (last_nb_samples : ℚ)

/-- The gap of a frame: `fabs(last_ts - pts * time_base + frame_ti)`. -/
def frameGap (lk : FilterLink) (last_ts frame_ti : ℚ) (f : Frame) : ℚ :=
  qabs (last_ts - (f.pts : ℚ) * lk.time_base + frame_ti)

/-- The scan loop of `process_next_frame`: walk the remaining queue keeping
`(drain, best)`, replacing them by `(i, gap i)` exactly when the gap at
index `i` is strictly below the best seen so far. -/
def fixScan (g : Frame → ℚ) : List Frame → ℕ → ℕ → ℚ → ℕ × ℚ
  | [], _, drain, best => (drain, best)
  | f :: fs, i, drain, best =>
    if g f < best then fixScan g fs (i + 1) i (g f)
    else fixScan g fs (i + 1) drain best

/-- `process_next_frame`: dequeue the oldest frame, emit it if its gap is
below tolerance or if no queued frame has a strictly smaller gap, otherwise
destroy it together with every queued frame before the best position and
emit nothing.  Returns (new state, emitted frame, return code); `ds` is the
code `ff_filter_frame` would return on emission.  Both callers guarantee a
non-empty queue; the `[]` branch is never exercised. -/
def process_next_frame (lk : FilterLink) (ds : Int) (s : FixPtsContext) :
    FixPtsContext × Option Frame × Int :=
  match s.fifo with
  | [] => (s, none, 0)
  | frame :: rest =>
    let frame_ti := expectedInterval lk s.last_nb_samples
    let frame_gap := frameGap lk s.last_ts frame_ti frame
    if frame_gap < s.tolerance then
      ({ s with last_ts := (frame.pts : ℚ) * lk.time_base,
                last_nb_samples := frame.nb_samples,
                fifo := rest }, some frame, ds)
    else
      let best := fixScan (frameGap lk s.last_ts frame_ti) rest 0 0 frame_gap
      if frame_gap ≤ best.2 then
        ({ s with last_ts := (frame.pts : ℚ) * lk.time_base,
                  last_nb_samples := frame.nb_samples,
                  fifo := rest }, some frame, ds)
      else
        ({ s with fifo := rest.drop best.1 }, none, 0)

/-- `filter_frame` of the stabilizer: enqueue below capacity, run the
resolution step on reaching capacity (its return code is discarded, as in
the source), and fail only if the queue somehow exceeds capacity. -/
def filter_frame (lk : FilterLink) (ds : Int) (s : FixPtsContext)
    (frame : Frame) : FixPtsContext × Option Frame × Int :=
  let s1 := if s.fifo.length < s.bufsize
            then { s with fifo := s.fifo ++ [frame] } else s
  let r := if s1.fifo.length = s1.bufsize
           then process_next_frame lk ds s1 else (s1, none, 0)
  if r.1.fifo.length > r.1.bufsize then (r.1, r.2.1, AVERROR_EINVAL)
  else (r.1, r.2.1, 0)

/-- The flush loop of `request_frame`, with the stale `ret` test of the
source preserved: `ret` is the value `ff_request_frame` returned and is
never updated inside the loop.  Fuel bounds the iteration count; callers
pass the queue length, which suffices because each resolution step shrinks
the queue. -/
def drainLoop (lk : FilterLink) (ds ret : Int) :
    ℕ → FixPtsContext → FixPtsContext × List Frame × Int
  | 0, s => (s, [], 0)
  | fuel + 1, s =>
    if s.fifo.length > 0 then
      let r := process_next_frame lk ds s
      if ret ≠ 0 then (r.1, r.2.1.toList, ret)
      else
        let rr := drainLoop lk ds ret fuel r.1
        (rr.1, r.2.1.toList ++ rr.2.1, rr.2.2)
    else (s, [], 0)

/-- `request_frame` of the stabilizer: pull upstream (its result is the
argument `upstreamRet`); on anything but end-of-stream, or on an empty
queue, propagate that result; otherwise enter the flush loop. -/
def request_frame (lk : FilterLink) (ds upstreamRet : Int)
    (s : FixPtsContext) : FixPtsContext × List Frame × Int :=
  if upstreamRet ≠ AVERROR_EOF ∨ s.fifo.length = 0 then (s, [], upstreamRet)
  else drainLoop lk ds upstreamRet s.fifo.length s

/-- Fold a sequence of frame deliveries through `filter_frame`, collecting
the per-delivery return codes. -/
def runDeliveries (lk : FilterLink) (ds : Int) :
    FixPtsContext → List Frame → FixPtsContext × List Int
  | s, [] => (s, [])
  | s, f :: fs =>
    let r := filter_frame lk ds s f
    let rr := runDeliveries lk ds r.1 fs
    (rr.1, r.2.2 :: rr.2)

/-- The state built by `init`: empty queue, `last_ts = 0`,
`last_nb_samples = 0`. -/
def initContext (tolerance : ℚ) (bufsize : ℕ) : FixPtsContext :=
  { last_ts := 0, last_nb_samples := 0, tolerance := tolerance,
    bufsize := bufsize, fifo := [] }

end FixPts

namespace Editing

/-- `MediaSegment`; the C field `end` is spelled `stop` (`end` is a Lean
keyword). -/
structure MediaSegment where
  start : ℚ
  stop : ℚ
deriving DecidableEq

/-- `EditingContext`; `current` models the pointer into the segment list as
the suffix of segments not yet passed (`[]` is the C null pointer). -/
structure EditingContext where
  ts_base : ℚ
  ts_prev : ℚ
  frame_out : Bool
  current : List MediaSegment
deriving DecidableEq

/-- `filter_frame` of the selector.  `tb` is `av_q2d(inlink->time_base)`,
`ds` the downstream return code, `pts` the frame timestamp in ticks.
Returns (new state, forwarded output as (seconds, rewritten pts), return
code). -/
def filter_frame (tb : ℚ) (ds : Int) (ed : EditingContext) (pts : ℤ) :
    EditingContext × Option (ℚ × ℤ) × Int :=
  match ed.current with
  | [] => ({ ed with frame_out := false }, none, 0)
  | cur :: rest =>
    let frame_in_ts : ℚ := (pts : ℚ) * tb
    if ed.ts_prev > frame_in_ts then (ed, none, AVERROR_EINVAL)
    else
      let ed1 := { ed with ts_prev := frame_in_ts }
      let frame_out_ts := ed1.ts_base + (frame_in_ts - cur.start)
      if frame_in_ts ≥ cur.stop then
        ({ ed1 with current := rest, ts_base := frame_out_ts,
                    frame_out := false }, none, 0)
      else if frame_in_ts ≤ cur.start then
        ({ ed1 with frame_out := false }, none, 0)
      else
        ({ ed1 with frame_out := ds == 0 },
          some (frame_out_ts, truncQ (frame_out_ts / tb)), ds)

/-- Fold a sequence of input pts values through the selector, collecting the
forwarded outputs in order. -/
def selRun (tb : ℚ) (ds : Int) :
    EditingContext → List ℤ → EditingContext × List (ℚ × ℤ)
  | ed, [] => (ed, [])
  | ed, pts :: more =>
    let r := filter_frame tb ds ed pts
    let rr := selRun tb ds r.1 more
    (rr.1, r.2.1.toList ++ rr.2)

/-- The state built by `init` after a successful parse: `ts_base = 0`,
`ts_prev = 0`, `frame_out = 0`, `current` at the head of the list. -/
def initContext (segs : List MediaSegment) : EditingContext :=
  { ts_base := 0, ts_prev := 0, frame_out := false, current := segs }

/-- `strsep(&s, d)`: split at the first occurrence of the delimiter.
Returns the leading token and, when the delimiter was found, the remainder
(`none` models the C update `*stringp = NULL`). -/
def strsep : List Char → Char → List Char × Option (List Char)
  | [], _ => ([], none)
  | c :: cs, d =>
    if c = d then ([], some cs)
    else
      match strsep cs d with
      | (p, n) => (c :: p, n)

/-- The `isspace` set skipped by `strtod`. -/
def isSpaceChar (c : Char) : Bool :=
  c = ' ' ∨ c = '\t' ∨ c = '\n' ∨ c = '\x0b' ∨ c = '\x0c' ∨ c = '\r'

/-- Value of a decimal digit string (most significant first). -/
def natVal (l : List Char) : ℕ :=
  l.foldl (fun a c => 10 * a + (c.toNat - '0'.toNat)) 0

/-- Signed decimal exponent after the `e`/`E` marker; zero digits model
`strtod` backing off an incomplete exponent. -/
def expVal (t : List Char) : ℤ :=
  match t with
  | '-' :: u => -((natVal (u.takeWhile Char.isDigit) : ℤ))
  | '+' :: u => (natVal (u.takeWhile Char.isDigit) : ℤ)
  | _ => (natVal (t.takeWhile Char.isDigit) : ℤ)

/-- The character-level phase of `atof`: sign, integer-part value,
fraction-part value and digit count, decimal exponent.  Kept free of `ℚ`
so that concrete tokens evaluate by `rfl`. -/
structure AtofParts where
  neg : Bool
  ip : ℕ
  fp : ℕ
  fpLen : ℕ
  ex : ℤ
deriving DecidableEq

/-- Scan the numeric prefix of a token the way `atof` does: optional
whitespace and sign, digits, an optional dot with more digits, an optional
exponent; everything after the prefix is ignored. -/
def atofParts (s : List Char) : AtofParts :=
  let s1 := s.dropWhile isSpaceChar
  let neg : Bool := match s1 with
    | '-' :: _ => true
    | _ => false
  let s2 : List Char := match s1 with
    | '-' :: t => t
    | '+' :: t => t
    | _ => s1
  let ip := s2.takeWhile Char.isDigit
  let s3 := s2.dropWhile Char.isDigit
  let fp : List Char := match s3 with
    | '.' :: t => t.takeWhile Char.isDigit
    | _ => []
  let s4 : List Char := match s3 with
    | '.' :: t => t.dropWhile Char.isDigit
    | _ => s3
  let ex : ℤ :=
    if ip.isEmpty ∧ fp.isEmpty then 0
    else match s4 with
      | 'e' :: t => expVal t
      | 'E' :: t => expVal t
      | _ => 0
  ⟨neg, natVal ip, natVal fp, fp.length, ex⟩

/-- The numeric value of scanned parts. -/
def atofVal (p : AtofParts) : ℚ :=
  (if p.neg then (-1 : ℚ) else 1) *
    ((p.ip : ℚ) + (p.fp : ℚ) / 10 ^ p.fpLen) * (10 : ℚ) ^ p.ex

/-- C `atof`: longest numeric prefix, trailing junk ignored, `0` when no
digits are found. -/
def atof (s : List Char) : ℚ := atofVal (atofParts s)

/-- The monotonicity test `j && segment->start < j->end`. -/
def monoViolated (j : Option MediaSegment) (start : ℚ) : Bool :=
  match j with
  | some js => decide (start < js.stop)
  | none => false

/-- The do-while loop of `parse_segments`.  `j` is the previously built
segment, `n` the unconsumed input.  Fuel bounds the iteration count; the
wrapper passes the string length plus one, which always suffices because
each iteration consumes at least one separator. -/
def parseLoop : ℕ → Option MediaSegment → List Char →
    Except Unit (List MediaSegment)
  | 0, _, _ => Except.error ()
  | fuel + 1, j, n =>
    let r1 := strsep n '-'
    let start := atof r1.1
    if monoViolated j start then Except.error ()
    else
      match r1.2 with
      | none => Except.error ()
      | some n1 =>
        let r2 := strsep n1 '#'
        let stop := atof r2.1
        if start ≥ stop then Except.error ()
        else
          match r2.2 with
          | none => Except.ok [⟨start, stop⟩]
          | some n2 =>
            (parseLoop fuel (some ⟨start, stop⟩) n2).map
              (fun l => (⟨start, stop⟩ : MediaSegment) :: l)

/-- `parse_segments`: a missing option string is a configuration error;
otherwise run the parse loop. -/
def parse_segments (opt : Option (List Char)) :
    Except Unit (List MediaSegment) :=
  match opt with
  | none => Except.error ()
  | some s => parseLoop (s.length + 1) none s

/-- `init` of the selector: parse, then build the initial state. -/
def init (opt : Option (List Char)) : Except Unit EditingContext :=
  (parse_segments opt).map initContext

/-- Whether a parse succeeded. -/
def exOk (e : Except Unit (List MediaSegment)) : Bool :=
  match e with
  | Except.ok _ => true
  | Except.error _ => false

/-- Specification-level segment description: a list of `(start, end)`
token pairs, rendered with `-` between bounds and `#` between pairs. -/
def renderPair (p : List Char × List Char) : List Char :=
  p.1 ++ '-' :: p.2

/-- Render a token-pair list into the option-string format
`start-end#start-end#...`. -/
def render : List (List Char × List Char) → List Char
  | [] => []
  | [p] => renderPair p
  | p :: q :: rest => renderPair p ++ '#' :: render (q :: rest)

/-- A numeral token of a well-formed description: decimal digits and dots
only. -/
def numTok (t : List Char) : Prop :=
  ∀ c ∈ t, c.isDigit = true ∨ c = '.'

/-- Invariant used for output monotonicity: `L` (a bound on every output
forwarded so far) is at most the candidate output timestamp of a
hypothetical frame at `ts_prev`, clamped from below at the active
segment's start; vacuous once the segment list is exhausted. -/
def Pinv (L : ℚ) (ed : EditingContext) : Prop :=
  ∀ c ∈ ed.current.head?, L ≤ ed.ts_base + max (ed.ts_prev - c.start) 0

/-- What the loop body checks about successive `(start, end)` values: the
first pair is checked against the previous end if one exists, every pair
must satisfy `start < end`, and each pair's end constrains the next. -/
def goodSegs : Option ℚ → List (ℚ × ℚ) → Prop
  | _, [] => True
  | j, (s, e) :: rest =>
    (∀ je ∈ j, je ≤ s) ∧ s < e ∧ goodSegs (some e) rest

/-- The accept/reject skeleton of the parse loop over the numeric values of
a rendered description (used to state its correctness). -/
def checkFrom (j : Option ℚ) :
    List (ℚ × ℚ) → Except Unit (List MediaSegment)
  | [] => Except.error ()
  | (s, e) :: rest =>
    if (match j with | some je => decide (s < je) | none => false) then
      Except.error ()
    else if s ≥ e then Except.error ()
    else
      match rest with
      | [] => Except.ok [⟨s, e⟩]
      | _ => (checkFrom (some e) rest).map
          (fun l => (⟨s, e⟩ : MediaSegment) :: l)

end Editing

/-! ## Claim theorems -/

/-- C9: a resolution step of the stabilizer that emits nothing leaves
`last_ts` and the duration hint `last_nb_samples` unchanged; they advance
only on emission. -/
theorem claim9_discard_preserves_cadence (lk : FilterLink) (ds : Int)
    (s : FixPts.FixPtsContext)
    (h : (FixPts.process_next_frame lk ds s).2.1 = none) :
    (FixPts.process_next_frame lk ds s).1.last_ts = s.last_ts ∧
      (FixPts.process_next_frame lk ds s).1.last_nb_samples =
        s.last_nb_samples := by
  cases hf : s.fifo with
  | nil => simp [FixPts.process_next_frame, hf]
  | cons f rest =>
    simp only [FixPts.process_next_frame, hf] at h ⊢
    by_cases h1 : FixPts.frameGap lk s.last_ts
        (FixPts.expectedInterval lk s.last_nb_samples) f < s.tolerance
    · rw [if_pos h1] at h
      simp at h
    · rw [if_neg h1] at h ⊢
      by_cases h2 : FixPts.frameGap lk s.last_ts
          (FixPts.expectedInterval lk s.last_nb_samples) f ≤
          (FixPts.fixScan (FixPts.frameGap lk s.last_ts
              (FixPts.expectedInterval lk s.last_nb_samples)) rest 0 0
            (FixPts.frameGap lk s.last_ts
              (FixPts.expectedInterval lk s.last_nb_samples) f)).2
      · rw [if_pos h2] at h
        simp at h
      · rw [if_neg h2]
        exact ⟨rfl, rfl⟩

/-- Witness for C9 at a concrete discarding state: oldest frame gap `4`,
queued frame gap `0`, tolerance `0`, so the step discards and emits
nothing. -/
theorem claim9_witness :
    (FixPts.process_next_frame ⟨MediaType.video, 1, 1, 1⟩ (-1)
        ⟨0, 0, 0, 2, [⟨5, 0⟩, ⟨1, 0⟩]⟩).1.last_ts =
      (⟨0, 0, 0, 2, [⟨5, 0⟩, ⟨1, 0⟩]⟩ : FixPts.FixPtsContext).last_ts ∧
    (FixPts.process_next_frame ⟨MediaType.video, 1, 1, 1⟩ (-1)
        ⟨0, 0, 0, 2, [⟨5, 0⟩, ⟨1, 0⟩]⟩).1.last_nb_samples =
      (⟨0, 0, 0, 2, [⟨5, 0⟩, ⟨1, 0⟩]⟩ : FixPts.FixPtsContext).last_nb_samples :=
  claim9_discard_preserves_cadence ⟨MediaType.video, 1, 1, 1⟩ (-1)
    ⟨0, 0, 0, 2, [⟨5, 0⟩, ⟨1, 0⟩]⟩ (by
      norm_num [FixPts.process_next_frame, FixPts.expectedInterval,
        FixPts.frameGap, FixPts.fixScan, qabs])

/-- C6 (amended): while the segment list is not yet exhausted, a frame
whose timestamp in seconds is strictly below `ts_prev` fails with the
discontinuity error `AVERROR(EINVAL)`, forwards nothing, and leaves the
state unchanged.  (The original claim, quantified over every state, fails
once the list is exhausted; see `claim6_cex`.) -/
theorem claim6_discontinuity_when_active (tb : ℚ) (ds : Int)
    (ed : Editing.EditingContext) (pts : ℤ)
    (hc : ed.current ≠ []) (hts : (pts : ℚ) * tb < ed.ts_prev) :
    Editing.filter_frame tb ds ed pts = (ed, none, AVERROR_EINVAL) := by
  cases hcur : ed.current with
  | nil => exact absurd hcur hc
  | cons c rest =>
    simp only [Editing.filter_frame, hcur]
    rw [if_pos]
    exact hts

/-- Witness for C6: state mid-list with `ts_prev = 5`, frame at `1`
second. -/
theorem claim6_witness :
    Editing.filter_frame 1 0 ⟨0, 5, false, [⟨1, 2⟩]⟩ 1 =
      (⟨0, 5, false, [⟨1, 2⟩]⟩, none, AVERROR_EINVAL) :=
  claim6_discontinuity_when_active 1 0 ⟨0, 5, false, [⟨1, 2⟩]⟩ 1
    (by simp) (by norm_num)

/-- Counterexample to C6 as stated: after the run `[5]` on segment list
`[1,2]` (time base `1`) the list is exhausted and `ts_prev = 5`; delivering
a frame at `1` second — strictly below `ts_prev` — is silently discarded
with return code `0`, not the discontinuity error the claim demands for
every state. -/
theorem claim6_cex :
    (Editing.selRun 1 0 (Editing.initContext [⟨1, 2⟩]) [5]).1.ts_prev = 5 ∧
    ((1 : ℤ) : ℚ) * 1 < 5 ∧
    (Editing.filter_frame 1 0
        (Editing.selRun 1 0 (Editing.initContext [⟨1, 2⟩]) [5]).1 1).2.2 = 0 ∧
    (Editing.filter_frame 1 0
        (Editing.selRun 1 0 (Editing.initContext [⟨1, 2⟩]) [5]).1 1).2.1 =
      none := by
  refine ⟨?_, by norm_num, ?_, ?_⟩ <;>
    norm_num [Editing.selRun, Editing.filter_frame, Editing.initContext,
      truncQ, AVERROR_EINVAL]

/-- C10: from a freshly initialized selector with a non-empty segment list
(`ts_prev = 0`), a first frame with strictly negative timestamp in seconds
fails with the discontinuity error, forwards nothing, and leaves the state
unchanged. -/
theorem claim10_negative_first_frame (tb : ℚ) (ds : Int)
    (segs : List Editing.MediaSegment) (pts : ℤ)
    (hs : segs ≠ []) (hneg : (pts : ℚ) * tb < 0) :
    Editing.filter_frame tb ds (Editing.initContext segs) pts =
      (Editing.initContext segs, none, AVERROR_EINVAL) := by
  cases segs with
  | nil => exact absurd rfl hs
  | cons c rest =>
    simp only [Editing.filter_frame, Editing.initContext]
    rw [if_pos]
    exact hneg

/-- Witness for C10: segment list `[1,2]`, time base `1`, first frame at
`-1` seconds. -/
theorem claim10_witness :
    Editing.filter_frame 1 0 (Editing.initContext [⟨1, 2⟩]) (-1) =
      (Editing.initContext [⟨1, 2⟩], none, AVERROR_EINVAL) :=
  claim10_negative_first_frame 1 0 [⟨1, 2⟩] (-1) (by simp) (by norm_num)

/-- C5 is a code bug: with capacity `1`, tolerance `10` and a downstream
that fails with `-22`, a delivery triggers the resolution step, the step
forwards the frame and gets `-22` back from downstream, yet `filter_frame`
returns `0` — the downstream error is swallowed, contradicting the claimed
propagation. -/
theorem claim5_error_swallowed :
    (FixPts.filter_frame ⟨MediaType.video, 1, 1, 1⟩ (-22)
        ⟨0, 0, 10, 1, []⟩ ⟨1, 0⟩).2.2 = 0 ∧
    (FixPts.filter_frame ⟨MediaType.video, 1, 1, 1⟩ (-22)
        ⟨0, 0, 10, 1, []⟩ ⟨1, 0⟩).2.1 = some ⟨1, 0⟩ ∧
    (FixPts.process_next_frame ⟨MediaType.video, 1, 1, 1⟩ (-22)
        ⟨0, 0, 10, 1, [⟨1, 0⟩]⟩).2.2 = -22 := by
  refine ⟨?_, ?_, ?_⟩ <;>
    norm_num [FixPts.filter_frame, FixPts.process_next_frame,
      FixPts.expectedInterval, FixPts.frameGap, FixPts.fixScan, qabs,
      AVERROR_EINVAL]

/-- C4 is a code bug: on end-of-stream with two buffered frames whose
oldest is within tolerance, the flush loop runs the resolution step once
(emitting the oldest frame) and then returns `AVERROR_EOF` because the
stale `ret` from the upstream pull is nonzero — one frame remains queued,
contradicting the claimed drain-until-empty. -/
theorem claim4_flush_stops_early :
    (FixPts.request_frame ⟨MediaType.video, 1, 1, 1⟩ 0 AVERROR_EOF
        ⟨0, 0, 10, 4, [⟨1, 0⟩, ⟨2, 0⟩]⟩).1.fifo = [⟨2, 0⟩] ∧
    (FixPts.request_frame ⟨MediaType.video, 1, 1, 1⟩ 0 AVERROR_EOF
        ⟨0, 0, 10, 4, [⟨1, 0⟩, ⟨2, 0⟩]⟩).2.1 = [⟨1, 0⟩] ∧
    (FixPts.request_frame ⟨MediaType.video, 1, 1, 1⟩ 0 AVERROR_EOF
        ⟨0, 0, 10, 4, [⟨1, 0⟩, ⟨2, 0⟩]⟩).2.2 = AVERROR_EOF := by
  refine ⟨?_, ?_, ?_⟩ <;>
    norm_num [FixPts.request_frame, FixPts.drainLoop,
      FixPts.process_next_frame, FixPts.expectedInterval, FixPts.frameGap,
      FixPts.fixScan, qabs, AVERROR_EOF]

/-- Counterexample to C2 as stated: in the scenario (segments
`1.0-2.0#3.0-4.0`, time base `1/2`, frames at `0.5, 1.5, 2.5` seconds),
after the boundary-crossing frame at `2.5` the offset `ts_base` is `3/2`,
not the `1.0` the claim asserts. -/
theorem claim2_cex :
    (Editing.selRun (1/2) 0 (Editing.initContext [⟨1, 2⟩, ⟨3, 4⟩])
        [1, 3, 5]).1.ts_base = 3/2 ∧ (3/2 : ℚ) ≠ 1 := by
  constructor
  · norm_num [Editing.selRun, Editing.filter_frame, Editing.initContext,
      truncQ, AVERROR_EINVAL]
  · norm_num

/-- C2 (amended): in the scenario the frame at `0.5` is discarded, `1.5`
is forwarded at output time `0.5` (pts `1`), `2.5` is discarded crossing
the boundary with `ts_base` becoming `3/2`, `3.5` is forwarded at output
time `2.0` (pts `4`), and `4.5` is discarded crossing the second boundary,
exhausting the list with `ts_base = 3`. -/
theorem claim2_amended_trace :
    Editing.selRun (1/2) 0 (Editing.initContext [⟨1, 2⟩, ⟨3, 4⟩])
        [1, 3, 5, 7, 9] =
      (⟨3, 9/2, false, []⟩, [(1/2, 1), (2, 4)]) ∧
    (Editing.selRun (1/2) 0 (Editing.initContext [⟨1, 2⟩, ⟨3, 4⟩])
        [1, 3, 5]).1 = ⟨3/2, 5/2, false, [⟨3, 4⟩]⟩ := by
  constructor <;>
    norm_num [Editing.selRun, Editing.filter_frame, Editing.initContext,
      truncQ, AVERROR_EINVAL]

/-- Counterexample to C3 as stated: segments `[1,2]` and `[3,4]`, time
base `1/2`, strictly increasing inputs at `1.5, 2.5, 3.5` seconds.  The
previous segment's output ends at `1.0`, so contiguity demands the first
retained frame of the next segment (input `3.5`) appear at
`1 + (3.5 - 3) = 3/2`; the code forwards it at `2`, leaving a gap of
`1/2` in the output timeline. -/
theorem claim3_cex :
    (Editing.selRun (1/2) 0 (Editing.initContext [⟨1, 2⟩, ⟨3, 4⟩])
        [3, 5, 7]).2.map Prod.fst = [1/2, 2] ∧
    (2 : ℚ) ≠ 1 + ((7 : ℚ) * (1/2) - 3) := by
  constructor
  · norm_num [Editing.selRun, Editing.filter_frame, Editing.initContext,
      truncQ, AVERROR_EINVAL]
  · norm_num

/-- Counterexample to C7 as stated: the malformed description
`1.0#3.0-4.0` (first pair is missing its bound) is accepted by the parser
— `strsep` takes everything up to the first `-` as the start token and
`atof` reads `1.0` off it, yielding the single segment `[1,4]` — where the
claim demands a configuration error for every missing-bound input. -/
theorem claim7_cex :
    Editing.exOk (Editing.parse_segments
      (some ['1', '.', '0', '#', '3', '.', '0', '-', '4', '.', '0'])) =
      true := by
  have h1 : Editing.strsep
      ['1', '.', '0', '#', '3', '.', '0', '-', '4', '.', '0'] '-'
      = (['1', '.', '0', '#', '3', '.', '0'], some ['4', '.', '0']) := rfl
  have h2 : Editing.strsep ['4', '.', '0'] '#' =
      (['4', '.', '0'], none) := rfl
  have h3 : Editing.atof ['1', '.', '0', '#', '3', '.', '0'] = 1 := by
    have hp : Editing.atofParts ['1', '.', '0', '#', '3', '.', '0'] =
        ⟨false, 1, 0, 1, 0⟩ := rfl
    rw [Editing.atof, hp]; norm_num [Editing.atofVal]
  have h4 : Editing.atof ['4', '.', '0'] = 4 := by
    have hp : Editing.atofParts ['4', '.', '0'] = ⟨false, 4, 0, 1, 0⟩ := rfl
    rw [Editing.atof, hp]; norm_num [Editing.atofVal]
  simp [Editing.parse_segments, Editing.parseLoop, h1, h2, h3, h4,
    Editing.monoViolated, Editing.exOk]

/-- Every resolution step on a non-empty queue removes at least the oldest
entry. -/
theorem FixPts.process_shrinks (lk : FilterLink) (ds : Int)
    (s : FixPts.FixPtsContext) (h : s.fifo ≠ []) :
    (FixPts.process_next_frame lk ds s).1.fifo.length < s.fifo.length := by
  cases hf : s.fifo with
  | nil => exact absurd hf h
  | cons f rest =>
    simp only [FixPts.process_next_frame, hf]
    split
    · simp
    · split
      · simp
      · simp only [List.length_cons, List.length_drop]
        omega

/-- The resolution step never changes the configured capacity. -/
theorem FixPts.process_bufsize (lk : FilterLink) (ds : Int)
    (s : FixPts.FixPtsContext) :
    (FixPts.process_next_frame lk ds s).1.bufsize = s.bufsize := by
  cases hf : s.fifo with
  | nil => simp [FixPts.process_next_frame, hf]
  | cons f rest =>
    simp only [FixPts.process_next_frame, hf]
    split
    · rfl
    · split <;> rfl

/-- One delivery preserves the strict capacity invariant: if the queue is
below capacity on entry it is below capacity on exit, the capacity is
unchanged, and the delivery returns `0` (the fatal branch is not taken). -/
theorem FixPts.filter_frame_inv (lk : FilterLink) (ds : Int)
    (s : FixPts.FixPtsContext) (f : Frame)
    (h : s.fifo.length < s.bufsize) :
    (FixPts.filter_frame lk ds s f).1.fifo.length < s.bufsize ∧
    (FixPts.filter_frame lk ds s f).1.bufsize = s.bufsize ∧
    (FixPts.filter_frame lk ds s f).2.2 = 0 := by
  have hlen : ({ s with fifo := s.fifo ++ [f] } :
      FixPts.FixPtsContext).fifo.length = s.fifo.length + 1 := by simp
  by_cases hfull : s.fifo.length + 1 = s.bufsize
  · have hne : ({ s with fifo := s.fifo ++ [f] } :
        FixPts.FixPtsContext).fifo ≠ [] := by
      simp
    have hsh := FixPts.process_shrinks lk ds { s with fifo := s.fifo ++ [f] } hne
    have hbs := FixPts.process_bufsize lk ds { s with fifo := s.fifo ++ [f] }
    have hlt : (FixPts.process_next_frame lk ds
        { s with fifo := s.fifo ++ [f] }).1.fifo.length < s.bufsize := by
      rw [hlen] at hsh
      omega
    simp only [FixPts.filter_frame, if_pos h, hlen, if_pos hfull]
    have hb2 : ({ s with fifo := s.fifo ++ [f] } :
        FixPts.FixPtsContext).bufsize = s.bufsize := rfl
    have hnotgt : ¬ (FixPts.process_next_frame lk ds
        { s with fifo := s.fifo ++ [f] }).1.fifo.length >
        (FixPts.process_next_frame lk ds
          { s with fifo := s.fifo ++ [f] }).1.bufsize := by
      rw [hbs, hb2]
      omega
    rw [if_neg hnotgt]
    exact ⟨hlt, hbs, rfl⟩
  · simp only [FixPts.filter_frame, if_pos h, hlen, if_neg hfull]
    have hlt : ({ s with fifo := s.fifo ++ [f] } :
        FixPts.FixPtsContext).fifo.length < s.bufsize := by
      rw [hlen]
      omega
    rw [if_neg (by simpa using not_lt.mpr (le_of_lt hlt))]
    exact ⟨by simpa using hlt, rfl, rfl⟩

/-- The capacity invariant is preserved along any delivery sequence. -/
theorem FixPts.runDeliveries_inv (lk : FilterLink) (ds : Int)
    (frames : List Frame) :
    ∀ (s : FixPts.FixPtsContext), 1 ≤ s.bufsize →
      s.fifo.length < s.bufsize →
      (FixPts.runDeliveries lk ds s frames).1.fifo.length < s.bufsize ∧
      ∀ r ∈ (FixPts.runDeliveries lk ds s frames).2, r = 0 := by
  induction frames with
  | nil =>
    intro s hb h
    exact ⟨h, by simp [FixPts.runDeliveries]⟩
  | cons f fs ih =>
    intro s hb h
    obtain ⟨h1, h2, h3⟩ := FixPts.filter_frame_inv lk ds s f h
    have ihh := ih (FixPts.filter_frame lk ds s f).1
      (by rw [h2]; exact hb) (by rw [h2]; exact h1)
    refine ⟨?_, ?_⟩
    · simpa only [FixPts.runDeliveries, h2] using ihh.1
    · intro r hr
      simp only [FixPts.runDeliveries, List.mem_cons] at hr
      rcases hr with hr | hr
      · rw [hr]; exact h3
      · exact ihh.2 r hr

/-- C8: from a freshly initialized stabilizer with capacity `bufsize ≥ 1`,
after any sequence of deliveries the queue length never exceeds `bufsize`
(in fact stays strictly below it between deliveries), and every delivery
returns `0` — the capacity-violation branch returning `AVERROR(EINVAL)` is
unreachable: a delivery enqueues only below capacity, and the resolution
step run on reaching capacity removes at least the oldest entry. -/
theorem claim8_capacity_invariant (lk : FilterLink) (ds : Int) (tol : ℚ)
    (bufsize : ℕ) (hb : 1 ≤ bufsize) (frames : List Frame) :
    (FixPts.runDeliveries lk ds (FixPts.initContext tol bufsize)
        frames).1.fifo.length ≤ bufsize ∧
    ∀ r ∈ (FixPts.runDeliveries lk ds (FixPts.initContext tol bufsize)
        frames).2, r = 0 := by
  have h := FixPts.runDeliveries_inv lk ds frames
    (FixPts.initContext tol bufsize) hb (by simpa [FixPts.initContext] using hb)
  exact ⟨le_of_lt h.1, h.2⟩

/-- Witness for C8: capacity 1, two deliveries. -/
theorem claim8_witness :
    (FixPts.runDeliveries ⟨MediaType.video, 1, 1, 1⟩ 0
        (FixPts.initContext 0 1) [⟨0, 0⟩, ⟨1, 0⟩]).1.fifo.length ≤ 1 ∧
    ∀ r ∈ (FixPts.runDeliveries ⟨MediaType.video, 1, 1, 1⟩ 0
        (FixPts.initContext 0 1) [⟨0, 0⟩, ⟨1, 0⟩]).2, r = 0 :=
  claim8_capacity_invariant ⟨MediaType.video, 1, 1, 1⟩ 0 0 1
    (by norm_num) [⟨0, 0⟩, ⟨1, 0⟩]

/-- Characterization of the scan loop: the returned `best` is at most the
baseline and bounds every scanned gap from below; if it improved on the
baseline, the returned position is `i` plus the first index attaining the
final minimum (every earlier gap is strictly larger); otherwise position
and baseline are returned unchanged. -/
theorem FixPts.fixScan_spec (g : Frame → ℚ) (l : List Frame) :
    ∀ (i drain : ℕ) (best : ℚ),
      (FixPts.fixScan g l i drain best).2 ≤ best ∧
      (∀ f ∈ l, (FixPts.fixScan g l i drain best).2 ≤ g f) ∧
      ((FixPts.fixScan g l i drain best).2 < best →
        ∃ p, ∃ (hp : p < l.length),
          (FixPts.fixScan g l i drain best).1 = i + p ∧
          g (l.get ⟨p, hp⟩) = (FixPts.fixScan g l i drain best).2 ∧
          ∀ f ∈ l.take p, (FixPts.fixScan g l i drain best).2 < g f) ∧
      (¬ (FixPts.fixScan g l i drain best).2 < best →
        (FixPts.fixScan g l i drain best).1 = drain ∧
        (FixPts.fixScan g l i drain best).2 = best) := by
  induction l with
  | nil =>
    intro i drain best
    simp [FixPts.fixScan]
  | cons f fs ih =>
    intro i drain best
    by_cases hf : g f < best
    · simp only [FixPts.fixScan, if_pos hf]
      obtain ⟨R1, R2, R3, R4⟩ := ih (i + 1) i (g f)
      have hlt : (FixPts.fixScan g fs (i + 1) i (g f)).2 < best :=
        lt_of_le_of_lt R1 hf
      refine ⟨le_of_lt hlt, ?_, ?_, fun hnot => absurd hlt hnot⟩
      · intro x hx
        rcases List.mem_cons.mp hx with hx | hx
        · rw [hx]
          exact R1
        · exact R2 x hx
      · intro _
        by_cases hr : (FixPts.fixScan g fs (i + 1) i (g f)).2 < g f
        · obtain ⟨p, hp, hd, hgv, hstrict⟩ := R3 hr
          refine ⟨p + 1, by simpa using Nat.succ_lt_succ hp, by omega,
            by simpa using hgv, ?_⟩
          intro x hx
          rw [List.take_succ_cons] at hx
          rcases List.mem_cons.mp hx with hx | hx
          · rw [hx]
            exact hr
          · exact hstrict x hx
        · obtain ⟨hd, hb2⟩ := R4 hr
          exact ⟨0, by simp, by omega, by simpa using hb2.symm, by simp⟩
    · simp only [FixPts.fixScan, if_neg hf]
      obtain ⟨R1, R2, R3, R4⟩ := ih (i + 1) drain best
      refine ⟨R1, ?_, ?_, R4⟩
      · intro x hx
        rcases List.mem_cons.mp hx with hx | hx
        · rw [hx]
          exact le_trans R1 (not_lt.mp hf)
        · exact R2 x hx
      · intro hlt
        obtain ⟨p, hp, hd, hgv, hstrict⟩ := R3 hlt
        refine ⟨p + 1, by simpa using Nat.succ_lt_succ hp, by omega,
          by simpa using hgv, ?_⟩
        intro x hx
        rw [List.take_succ_cons] at hx
        rcases List.mem_cons.mp hx with hx | hx
        · rw [hx]
          exact lt_of_lt_of_le hlt (not_lt.mp hf)
        · exact hstrict x hx

/-- C1: the resolution step on a queue whose oldest frame is `F` computes
`F`'s gap as `abs(last_ts - F_ts + expected_interval)` (this is
`FixPts.frameGap`); if the gap is below tolerance it emits `F`; if no
queued frame has a strictly smaller gap it emits `F`; otherwise it picks
the first position `p` attaining the minimal gap (strictly smaller than
`F`'s, with every earlier gap strictly larger), destroys `F` and the `p`
queued frames before that position, leaves `rest.drop p` queued, and emits
nothing. -/
theorem claim1_resolution_step (lk : FilterLink) (ds : Int)
    (s : FixPts.FixPtsContext) (F : Frame) (rest : List Frame)
    (hq : s.fifo = F :: rest) :
    (FixPts.frameGap lk s.last_ts
        (FixPts.expectedInterval lk s.last_nb_samples) F < s.tolerance →
      FixPts.process_next_frame lk ds s =
        ({ s with last_ts := (F.pts : ℚ) * lk.time_base,
                  last_nb_samples := F.nb_samples, fifo := rest },
          some F, ds)) ∧
    (¬ FixPts.frameGap lk s.last_ts
        (FixPts.expectedInterval lk s.last_nb_samples) F < s.tolerance →
      (∀ f ∈ rest, FixPts.frameGap lk s.last_ts
          (FixPts.expectedInterval lk s.last_nb_samples) F ≤
        FixPts.frameGap lk s.last_ts
          (FixPts.expectedInterval lk s.last_nb_samples) f) →
      FixPts.process_next_frame lk ds s =
        ({ s with last_ts := (F.pts : ℚ) * lk.time_base,
                  last_nb_samples := F.nb_samples, fifo := rest },
          some F, ds)) ∧
    (¬ FixPts.frameGap lk s.last_ts
        (FixPts.expectedInterval lk s.last_nb_samples) F < s.tolerance →
      (∃ f ∈ rest, FixPts.frameGap lk s.last_ts
          (FixPts.expectedInterval lk s.last_nb_samples) f <
        FixPts.frameGap lk s.last_ts
          (FixPts.expectedInterval lk s.last_nb_samples) F) →
      ∃ p, ∃ (hp : p < rest.length),
        FixPts.frameGap lk s.last_ts
            (FixPts.expectedInterval lk s.last_nb_samples)
            (rest.get ⟨p, hp⟩) <
          FixPts.frameGap lk s.last_ts
            (FixPts.expectedInterval lk s.last_nb_samples) F ∧
        (∀ f ∈ rest, FixPts.frameGap lk s.last_ts
            (FixPts.expectedInterval lk s.last_nb_samples)
            (rest.get ⟨p, hp⟩) ≤
          FixPts.frameGap lk s.last_ts
            (FixPts.expectedInterval lk s.last_nb_samples) f) ∧
        (∀ f ∈ rest.take p, FixPts.frameGap lk s.last_ts
            (FixPts.expectedInterval lk s.last_nb_samples)
            (rest.get ⟨p, hp⟩) <
          FixPts.frameGap lk s.last_ts
            (FixPts.expectedInterval lk s.last_nb_samples) f) ∧
        FixPts.process_next_frame lk ds s =
          ({ s with fifo := rest.drop p }, none, 0)) := by
  obtain ⟨R1, R2, R3, R4⟩ := FixPts.fixScan_spec
    (FixPts.frameGap lk s.last_ts
      (FixPts.expectedInterval lk s.last_nb_samples)) rest 0 0
    (FixPts.frameGap lk s.last_ts
      (FixPts.expectedInterval lk s.last_nb_samples) F)
  refine ⟨?_, ?_, ?_⟩
  · intro h1
    simp only [FixPts.process_next_frame, hq]
    rw [if_pos h1]
  · intro h1 h2
    have hno : ¬ (FixPts.fixScan (FixPts.frameGap lk s.last_ts
        (FixPts.expectedInterval lk s.last_nb_samples)) rest 0 0
        (FixPts.frameGap lk s.last_ts
          (FixPts.expectedInterval lk s.last_nb_samples) F)).2 <
        FixPts.frameGap lk s.last_ts
          (FixPts.expectedInterval lk s.last_nb_samples) F := by
      intro hlt
      obtain ⟨p, hp, hd, hgv, _⟩ := R3 hlt
      have hmem := h2 (rest.get ⟨p, hp⟩) (List.get_mem rest p hp)
      rw [hgv] at hmem
      exact absurd hlt (not_lt.mpr hmem)
    obtain ⟨hd, hb2⟩ := R4 hno
    simp only [FixPts.process_next_frame, hq]
    rw [if_neg h1, if_pos (le_of_eq hb2.symm)]
  · intro h1 h2
    obtain ⟨fimp, hfmem, hflt⟩ := h2
    have himp : (FixPts.fixScan (FixPts.frameGap lk s.last_ts
        (FixPts.expectedInterval lk s.last_nb_samples)) rest 0 0
        (FixPts.frameGap lk s.last_ts
          (FixPts.expectedInterval lk s.last_nb_samples) F)).2 <
        FixPts.frameGap lk s.last_ts
          (FixPts.expectedInterval lk s.last_nb_samples) F :=
      lt_of_le_of_lt (R2 fimp hfmem) hflt
    obtain ⟨p, hp, hd, hgv, hstrict⟩ := R3 himp
    refine ⟨p, hp, ?_, ?_, ?_, ?_⟩
    · rw [hgv]
      exact himp
    · intro f hf
      rw [hgv]
      exact R2 f hf
    · intro f hf
      rw [hgv]
      exact hstrict f hf
    · simp only [FixPts.process_next_frame, hq]
      rw [if_neg h1, if_neg (not_le.mpr himp), hd]
      norm_num

/-- Witness for C1 at a concrete state: video link with unit frame rate and
time base, `last_ts = 0`, tolerance `10`, queue `[⟨1,0⟩, ⟨2,0⟩]`; the
oldest frame's gap is `0 < 10`, so the step emits it. -/
theorem claim1_witness :
    FixPts.process_next_frame ⟨MediaType.video, 1, 1, 1⟩ 7
        ⟨0, 0, 10, 4, [⟨1, 0⟩, ⟨2, 0⟩]⟩ =
      ({ last_ts := ((1 : ℤ) : ℚ) * 1, last_nb_samples := 0,
         tolerance := 10, bufsize := 4, fifo := [⟨2, 0⟩] },
        some ⟨1, 0⟩, 7) :=
  (claim1_resolution_step ⟨MediaType.video, 1, 1, 1⟩ 7
      ⟨0, 0, 10, 4, [⟨1, 0⟩, ⟨2, 0⟩]⟩ ⟨1, 0⟩ [⟨2, 0⟩] rfl).1
    (by norm_num [FixPts.frameGap, FixPts.expectedInterval, qabs])

/-- One selector delivery preserves segment validity and the output bound:
a forwarded output lies between the incoming bound `L` and the new state's
bound; a discarded or failed delivery keeps the bound. -/
theorem Editing.filter_frame_mono (tb : ℚ) (ds : Int)
    (ed : Editing.EditingContext) (pts : ℤ) (L : ℚ)
    (hv : ∀ sg ∈ ed.current, sg.start < sg.stop)
    (hP : Editing.Pinv L ed) :
    (∀ sg ∈ (Editing.filter_frame tb ds ed pts).1.current,
      sg.start < sg.stop) ∧
    ((Editing.filter_frame tb ds ed pts).2.1 = none →
      Editing.Pinv L (Editing.filter_frame tb ds ed pts).1) ∧
    (∀ o, (Editing.filter_frame tb ds ed pts).2.1 = some o →
      L ≤ o.1 ∧ Editing.Pinv o.1 (Editing.filter_frame tb ds ed pts).1) := by
  cases hcur : ed.current with
  | nil =>
    refine ⟨?_, ?_, ?_⟩ <;>
      simp_all [Editing.filter_frame, Editing.Pinv, hcur]
  | cons c rest =>
    have hPc : L ≤ ed.ts_base + max (ed.ts_prev - c.start) 0 :=
      hP c (by rw [hcur]; simp)
    have hcstart : c.start < c.stop :=
      hv c (by rw [hcur]; exact List.mem_cons_self c rest)
    simp only [Editing.filter_frame, hcur]
    by_cases herr : ed.ts_prev > (pts : ℚ) * tb
    · rw [if_pos herr]
      refine ⟨?_, fun _ => ?_, by simp⟩
      · intro sg hsg
        exact hv sg hsg
      · exact hP
    · rw [if_neg herr]
      have hprev : ed.ts_prev ≤ (pts : ℚ) * tb := not_lt.mp herr
      by_cases hcross : (pts : ℚ) * tb ≥ c.stop
      · rw [if_pos hcross]
        refine ⟨?_, fun _ => ?_, by simp⟩
        · intro sg hsg
          exact hv sg (by rw [hcur]; exact List.mem_cons_of_mem c hsg)
        · intro c' hc'
          simp only [Option.mem_def] at hc'
          have hbase : L ≤ ed.ts_base + ((pts : ℚ) * tb - c.start) := by
            have hmax : max (ed.ts_prev - c.start) 0 ≤
                (pts : ℚ) * tb - c.start := by
              have h1 : ed.ts_prev - c.start ≤ (pts : ℚ) * tb - c.start := by
                linarith
              have h2 : (0 : ℚ) ≤ (pts : ℚ) * tb - c.start := by linarith
              exact max_le h1 h2
            linarith
          have hge : (0 : ℚ) ≤ max ((pts : ℚ) * tb - c'.start) 0 :=
            le_max_right _ _
          show L ≤ ed.ts_base + ((pts : ℚ) * tb - c.start) +
            max ((pts : ℚ) * tb - c'.start) 0
          linarith
      · rw [if_neg hcross]
        by_cases hpre : (pts : ℚ) * tb ≤ c.start
        · rw [if_pos hpre]
          refine ⟨?_, fun _ => ?_, by simp⟩
          · intro sg hsg
            exact hv sg (by rw [hcur]; exact hsg)
          · intro c' hc'
            simp only [List.head?_cons, Option.mem_def,
              Option.some.injEq] at hc'
            subst hc'
            have hmax0 : max (ed.ts_prev - c.start) 0 = 0 :=
              max_eq_right (by linarith)
            have hge : (0 : ℚ) ≤ max ((pts : ℚ) * tb - c.start) 0 :=
              le_max_right _ _
            rw [hmax0] at hPc
            show L ≤ ed.ts_base + max ((pts : ℚ) * tb - c.start) 0
            linarith
        · rw [if_neg hpre]
          have hgt : c.start < (pts : ℚ) * tb := not_le.mp hpre
          have hmax : max (ed.ts_prev - c.start) 0 ≤
              (pts : ℚ) * tb - c.start := by
            have h1 : ed.ts_prev - c.start ≤ (pts : ℚ) * tb - c.start := by
              linarith
            have h2 : (0 : ℚ) ≤ (pts : ℚ) * tb - c.start := by linarith
            exact max_le h1 h2
          refine ⟨?_, by simp, ?_⟩
          · intro sg hsg
            exact hv sg (by rw [hcur]; exact hsg)
          · intro o ho
            simp only [Option.some.injEq] at ho
            refine ⟨?_, ?_⟩
            · rw [← ho]
              show L ≤ ed.ts_base + ((pts : ℚ) * tb - c.start)
              linarith
            · intro c' hc'
              simp only [List.head?_cons, Option.mem_def,
                Option.some.injEq] at hc'
              subst hc'
              rw [← ho]
              show ed.ts_base + ((pts : ℚ) * tb - c.start) ≤
                ed.ts_base + max ((pts : ℚ) * tb - c.start) 0
              have hmaxeq : max ((pts : ℚ) * tb - c.start) 0 =
                  (pts : ℚ) * tb - c.start := max_eq_left (by linarith)
              rw [hmaxeq]

/-- Along any delivery sequence the forwarded outputs (in seconds) are
non-decreasing and bounded below by the incoming bound. -/
theorem Editing.selRun_mono (tb : ℚ) (ds : Int) (inputs : List ℤ) :
    ∀ (ed : Editing.EditingContext) (L : ℚ),
      (∀ sg ∈ ed.current, sg.start < sg.stop) → Editing.Pinv L ed →
      List.Sorted (· ≤ ·)
        ((Editing.selRun tb ds ed inputs).2.map Prod.fst) ∧
      ∀ o ∈ (Editing.selRun tb ds ed inputs).2, L ≤ o.1 := by
  induction inputs with
  | nil =>
    intro ed L hv hP
    simp [Editing.selRun]
  | cons pts more ih =>
    intro ed L hv hP
    obtain ⟨hv', hnone, hsome⟩ := Editing.filter_frame_mono tb ds ed pts L hv hP
    cases ho : (Editing.filter_frame tb ds ed pts).2.1 with
    | none =>
      obtain ⟨ihs, ihb⟩ := ih (Editing.filter_frame tb ds ed pts).1 L hv' (hnone ho)
      constructor
      · simpa [Editing.selRun, ho] using ihs
      · intro o hoo
        simp only [Editing.selRun, ho, Option.toList_none, List.nil_append] at hoo
        exact ihb o hoo
    | some o =>
      obtain ⟨hLo, hPo⟩ := hsome o ho
      obtain ⟨ihs, ihb⟩ := ih (Editing.filter_frame tb ds ed pts).1 o.1 hv' hPo
      constructor
      · simp only [Editing.selRun, ho, Option.toList_some, List.singleton_append,
          List.map_cons, List.sorted_cons]
        refine ⟨?_, ihs⟩
        intro b hb
        obtain ⟨x, hx, hxb⟩ := List.mem_map.mp hb
        rw [← hxb]
        exact ihb x hx
      · intro x hx
        simp only [Editing.selRun, ho, Option.toList_some, List.singleton_append,
          List.mem_cons] at hx
        rcases hx with hx | hx
        · rw [hx]
          exact hLo
        · exact le_trans hLo (ihb x hx)

/-- C3 (amended): for every segment list whose segments satisfy
`start < end` and every input sequence, the output timestamps forwarded by
the selector are non-decreasing.  Contiguity across boundaries fails in
general (`claim3_cex`): a crossing at input time `t` sets `ts_base` to
`old_base + (t - old.start)`, which exceeds the end of the previous
segment's output by `t - old.end`. -/
theorem claim3_amended_nondecreasing (tb : ℚ) (ds : Int)
    (segs : List Editing.MediaSegment) (inputs : List ℤ)
    (hv : ∀ sg ∈ segs, sg.start < sg.stop) :
    List.Sorted (· ≤ ·)
      ((Editing.selRun tb ds (Editing.initContext segs)
        inputs).2.map Prod.fst) := by
  cases segs with
  | nil =>
    refine (Editing.selRun_mono tb ds inputs (Editing.initContext []) 0
      (by simp [Editing.initContext]) ?_).1
    intro c hc
    simp [Editing.initContext] at hc
  | cons c rest =>
    refine (Editing.selRun_mono tb ds inputs
      (Editing.initContext (c :: rest)) (max (0 - c.start) 0)
      (by simpa [Editing.initContext] using hv) ?_).1
    intro c' hc'
    simp only [Editing.initContext, List.head?_cons, Option.mem_def,
      Option.some.injEq] at hc'
    subst hc'
    show max ((0 : ℚ) - c.start) 0 ≤ 0 + max ((0 : ℚ) - c.start) 0
    rw [zero_add]

/-- Witness for C3 (amended): one segment `[1,2]`, time base `1`, single
frame at `3` seconds. -/
theorem claim3_witness :
    List.Sorted (· ≤ ·)
      ((Editing.selRun 1 0 (Editing.initContext [⟨1, 2⟩])
        [3]).2.map Prod.fst) :=
  claim3_amended_nondecreasing 1 0 [⟨1, 2⟩] [3] (by
    intro sg hsg
    simp only [List.mem_singleton] at hsg
    subst hsg
    norm_num)

/-- `strsep` on a string without the delimiter consumes everything and
reports no remainder. -/
theorem Editing.strsep_no_delim (s : List Char) (d : Char) (h : d ∉ s) :
    Editing.strsep s d = (s, none) := by
  induction s with
  | nil => rfl
  | cons c cs ih =>
    have hne : ¬ (c = d) := by
      intro he
      subst he
      exact h (List.mem_cons_self c cs)
    have hcs : d ∉ cs := fun hm => h (List.mem_cons_of_mem c hm)
    simp [Editing.strsep, hne, ih hcs]

/-- `strsep` splits at the first delimiter occurrence. -/
theorem Editing.strsep_split (a rest : List Char) (d : Char) (h : d ∉ a) :
    Editing.strsep (a ++ d :: rest) d = (a, some rest) := by
  induction a with
  | nil => simp [Editing.strsep]
  | cons c cs ih =>
    have hne : ¬ (c = d) := by
      intro he
      subst he
      exact h (List.mem_cons_self c cs)
    have hcs : d ∉ cs := fun hm => h (List.mem_cons_of_mem c hm)
    simp [Editing.strsep, hne, ih hcs]

/-- A numeral token contains neither separator. -/
theorem Editing.numTok_not_mem (t : List Char) (h : Editing.numTok t) :
    '-' ∉ t ∧ '#' ∉ t := by
  refine ⟨fun hm => ?_, fun hm => ?_⟩
  · rcases h _ hm with hd | hd
    · exact absurd hd (by decide)
    · exact absurd hd (by decide)
  · rcases h _ hm with hd | hd
    · exact absurd hd (by decide)
    · exact absurd hd (by decide)

/-- A rendered description is at least as long as its pair count, minus
one. -/
theorem Editing.render_length (pairs : List (List Char × List Char)) :
    pairs.length ≤ (Editing.render pairs).length + 1 := by
  induction pairs with
  | nil => simp [Editing.render]
  | cons p rest ih =>
    cases rest with
    | nil => simp [Editing.render, Editing.renderPair]
    | cons q rs =>
      simp only [Editing.render, Editing.renderPair, List.length_append,
        List.length_cons] at *
      omega

/-- Mapping the success value does not change acceptance. -/
theorem Editing.exOk_map (e : Except Unit (List Editing.MediaSegment))
    (f : List Editing.MediaSegment → List Editing.MediaSegment) :
    Editing.exOk (e.map f) = Editing.exOk e := by
  cases e <;> rfl

/-- On a rendered description made of separator-free tokens, the parse
loop computes exactly the accept/reject skeleton over the tokens' `atof`
values. -/
theorem Editing.parseLoop_render (pairs : List (List Char × List Char)) :
    ∀ (j : Option Editing.MediaSegment) (fuel : ℕ),
      pairs.length ≤ fuel →
      (∀ p ∈ pairs, Editing.numTok p.1 ∧ Editing.numTok p.2) →
      Editing.parseLoop fuel j (Editing.render pairs) =
        Editing.checkFrom (j.map Editing.MediaSegment.stop)
          (pairs.map fun p => (Editing.atof p.1, Editing.atof p.2)) := by
  induction pairs with
  | nil =>
    intro j fuel _ _
    cases fuel with
    | zero => rfl
    | succ f =>
      simp [Editing.render, Editing.parseLoop, Editing.strsep,
        Editing.checkFrom, ite_self]
  | cons p rest ih =>
    intro j fuel hf htok
    obtain ⟨a, b⟩ := p
    have hna := Editing.numTok_not_mem a
      (htok (a, b) (List.mem_cons_self _ _)).1
    have hnb := Editing.numTok_not_mem b
      (htok (a, b) (List.mem_cons_self _ _)).2
    cases fuel with
    | zero => exact absurd hf (by simp)
    | succ f =>
      cases rest with
      | nil =>
        simp only [Editing.render, Editing.renderPair, Editing.parseLoop,
          Editing.strsep_split a b '-' hna.1,
          Editing.strsep_no_delim b '#' hnb.2,
          List.map_cons, List.map_nil, Editing.checkFrom]
        cases j <;> simp [Editing.monoViolated]
      | cons q rs =>
        have hrw : Editing.render ((a, b) :: q :: rs) =
            a ++ '-' :: (b ++ '#' :: Editing.render (q :: rs)) := by
          simp [Editing.render, Editing.renderPair]
        rw [hrw]
        simp only [Editing.parseLoop,
          Editing.strsep_split a (b ++ '#' :: Editing.render (q :: rs))
            '-' hna.1,
          Editing.strsep_split b (Editing.render (q :: rs)) '#' hnb.2,
          ih (some ⟨Editing.atof a, Editing.atof b⟩) f
            (by simpa using Nat.le_of_succ_le_succ hf)
            (fun p hp => htok p (List.mem_cons_of_mem _ hp)),
          List.map_cons, Editing.checkFrom]
        cases j <;> simp [Editing.monoViolated]

/-- `checkFrom` accepts exactly the non-empty lists passing the segment
checks. -/
theorem Editing.checkFrom_isOk (l : List (ℚ × ℚ)) :
    ∀ j : Option ℚ,
      Editing.exOk (Editing.checkFrom j l) = true ↔
        (l ≠ [] ∧ Editing.goodSegs j l) := by
  induction l with
  | nil =>
    intro j
    simp [Editing.checkFrom, Editing.exOk]
  | cons p rest ih =>
    intro j
    obtain ⟨ps, pe⟩ := p
    cases j with
    | none =>
      simp only [Editing.checkFrom]
      by_cases hpe : ps ≥ pe
      · rw [if_neg (by simp), if_pos hpe]
        simp [Editing.exOk, Editing.goodSegs]
        intro h
        exact absurd h (not_lt.mpr hpe)
      · rw [if_neg (by simp), if_neg hpe]
        cases rest with
        | nil =>
          simp [Editing.exOk, Editing.goodSegs, not_le.mp hpe]
        | cons r rs =>
          rw [Editing.exOk_map]
          rw [ih (some pe)]
          simp [Editing.goodSegs, not_le.mp hpe]
    | some je =>
      simp only [Editing.checkFrom]
      by_cases hj : ps < je
      · rw [if_pos (by simpa using hj)]
        simp [Editing.exOk, Editing.goodSegs]
        intro h
        exact absurd hj (not_lt.mpr h)
      · by_cases hpe : ps ≥ pe
        · rw [if_neg (by simpa using hj), if_pos hpe]
          simp [Editing.exOk, Editing.goodSegs]
          intro _ h
          exact absurd h (not_lt.mpr hpe)
        · rw [if_neg (by simpa using hj), if_neg hpe]
          cases rest with
          | nil =>
            simp [Editing.exOk, Editing.goodSegs, not_le.mp hpe,
              not_lt.mp hj]
          | cons r rs =>
            rw [Editing.exOk_map]
            rw [ih (some pe)]
            simp [Editing.goodSegs, not_le.mp hpe, not_lt.mp hj]

/-- The loop-shaped condition `goodSegs` in claim language: every interval
is nonempty and consecutive intervals are ordered. -/
theorem Editing.goodSegs_iff (l : List (ℚ × ℚ)) :
    ∀ j : Option ℚ,
      Editing.goodSegs j l ↔
        ((∀ p ∈ l, p.1 < p.2) ∧
         List.Chain' (fun a b : ℚ × ℚ => a.2 ≤ b.1) l ∧
         ∀ je, j = some je → ∀ hd ∈ l.head?, je ≤ hd.1) := by
  induction l with
  | nil =>
    intro j
    simp [Editing.goodSegs]
  | cons p rest ih =>
    intro j
    obtain ⟨ps, pe⟩ := p
    simp only [Editing.goodSegs, ih (some pe), List.chain'_cons',
      List.mem_cons, List.head?_cons, Option.mem_def, Option.some.injEq]
    constructor
    · rintro ⟨hj0, hlt, hall, hch, hhd⟩
      refine ⟨?_, ⟨?_, hch⟩, ?_⟩
      · rintro q (rfl | hq)
        · exact hlt
        · exact hall q hq
      · intro b hb
        exact hhd pe rfl b hb
      · rintro je hje hd rfl
        exact hj0 je hje
    · rintro ⟨hall, ⟨hhd, hch⟩, hj0⟩
      refine ⟨?_, hall (ps, pe) (Or.inl rfl), ?_, hch, ?_⟩
      · intro je hje
        exact hj0 je hje (ps, pe) rfl
      · intro q hq
        exact hall q (Or.inr hq)
      · rintro je rfl b hb
        exact hhd b hb

/-- C7 (amended): for every non-empty well-formed description — token
pairs of decimal-numeral characters rendered as `start-end#start-end#...`
— the parser accepts iff every interval satisfies `start < end` and each
interval's start is at least the previous interval's end; a missing
description fails, but not every malformed string is rejected: `atof`
reads a numeric prefix and ignores trailing junk, so e.g. a missing bound
can be mis-parsed and accepted (`claim7_cex`). -/
theorem claim7_parser_iff (pairs : List (List Char × List Char))
    (hne : pairs ≠ [])
    (htok : ∀ p ∈ pairs, Editing.numTok p.1 ∧ Editing.numTok p.2) :
    Editing.exOk (Editing.parse_segments
        (some (Editing.render pairs))) = true ↔
      ((∀ q ∈ pairs.map (fun p => (Editing.atof p.1, Editing.atof p.2)),
          q.1 < q.2) ∧
       List.Chain' (fun a b : ℚ × ℚ => a.2 ≤ b.1)
         (pairs.map (fun p => (Editing.atof p.1, Editing.atof p.2)))) := by
  have h1 : Editing.parse_segments (some (Editing.render pairs)) =
      Editing.checkFrom none
        (pairs.map fun p => (Editing.atof p.1, Editing.atof p.2)) := by
    simp only [Editing.parse_segments]
    have := Editing.parseLoop_render pairs none
      ((Editing.render pairs).length + 1)
      (by have := Editing.render_length pairs; omega) htok
    simpa using this
  rw [h1, Editing.checkFrom_isOk, Editing.goodSegs_iff]
  constructor
  · rintro ⟨-, h2, h3, -⟩
    exact ⟨h2, h3⟩
  · rintro ⟨h2, h3⟩
    refine ⟨by simpa using hne, h2, h3, ?_⟩
    rintro je ⟨⟩

/-- Witness for C7 (amended) at the single-pair description `1-2`. -/
theorem claim7_witness :
    Editing.exOk (Editing.parse_segments
        (some (Editing.render [(['1'], ['2'])]))) = true ↔
      ((∀ q ∈ [(['1'], ['2'])].map
          (fun p => (Editing.atof p.1, Editing.atof p.2)), q.1 < q.2) ∧
       List.Chain' (fun a b : ℚ × ℚ => a.2 ≤ b.1)
         ([(['1'], ['2'])].map
           (fun p => (Editing.atof p.1, Editing.atof p.2)))) :=
  claim7_parser_iff [(['1'], ['2'])] (by simp) (by
    intro p hp
    simp only [List.mem_singleton] at hp
    subst hp
    constructor <;> intro c hc <;> simp only [List.mem_singleton] at hc <;>
      subst hc <;> exact Or.inl (by decide))
